import Mathlib

/-!
Shallow embedding of `extract_curl_args.py`, the historical option-alias
extractor of the curl-to-go repository, together with theorems checking the
natural-language specification against it.

Python strings are modelled as Lean `String` (a wrapper around `List Char` in
this toolchain); the Python `str` operations used by the script are re-expressed
as structural recursions over `List Char` so that everything evaluates inside
the kernel.  Python dicts (which preserve insertion order, and keep an entry's
position when its value is overwritten) are modelled as association lists with
update-in-place / append-if-new semantics.  Python exceptions are modelled with
`Except String`.  The script's diagnostic printing (`pprint`, `print`,
`warnings.warn`) has no influence on the returned data; emitted duplicate
warnings are modelled explicitly (as the list of warned long names) because one
claim is about them.
-/

namespace Curl

/-! ## Python string primitives over `List Char` -/

/-- Whitespace stripped by Python `str.strip()` (the ASCII cases). -/
def wsChars : List Char := [' ', '\t', '\n', '\r', '\x0b', '\x0c']

/-- Strip characters in `set` from both ends of a char list (Python `str.strip(chars)`). -/
def stripCharsL (set : List Char) (l : List Char) : List Char :=
  ((l.dropWhile (fun c => set.contains c)).reverse.dropWhile
    (fun c => set.contains c)).reverse

/-- Python `s.strip(chars)`. -/
def pyStripChars (set : List Char) (s : String) : String :=
  String.mk (stripCharsL set s.toList)

/-- Python `s.strip()` (whitespace). -/
def pyStrip (s : String) : String := pyStripChars wsChars s

/-- Split a char list at every occurrence of the character `c`
(Python `str.split(sep)` for a one-character separator). -/
def splitChar (c : Char) : List Char → List (List Char)
  | [] => [[]]
  | a :: as =>
    match splitChar c as with
    | [] => [[]]
    | cur :: rest => if a = c then [] :: cur :: rest else (a :: cur) :: rest

/-- Python `s.splitlines()` for text whose line terminator is a plain newline. -/
def pySplitlines (s : String) : List String :=
  (splitChar '\n' s.toList).map String.mk

/-- Python `s.split(",")`. -/
def pySplitComma (s : String) : List String :=
  (splitChar ',' s.toList).map String.mk

/-- Everything before the first occurrence of the two-character sequence
`c1 c2` (Python `s.split(two_char_sep)[0]`). -/
def takeBefore2 (c1 c2 : Char) : List Char → List Char
  | [] => []
  | [a] => [a]
  | a :: b :: rest =>
    if a = c1 ∧ b = c2 then [] else a :: takeBefore2 c1 c2 (b :: rest)

/-- Python `line.split("/*")[0]`: the text before a same-line C comment. -/
def beforeComment (s : String) : String := String.mk (takeBefore2 '/' '*' s.toList)

/-- Boolean test that `pat` is an initial segment of `l`. -/
def listStarts {α : Type} [DecidableEq α] : List α → List α → Bool
  | [], _ => true
  | _ :: _, [] => false
  | a :: as, b :: bs => a = b && listStarts as bs

/-- Boolean test that `pat` occurs as a contiguous sublist of `l`. -/
def listHasInfix {α : Type} [DecidableEq α] (pat : List α) : List α → Bool
  | [] => listStarts pat []
  | b :: bs => listStarts pat (b :: bs) || listHasInfix pat bs

/-- Python `pat in s` (substring containment). -/
def strContains (s pat : String) : Bool := listHasInfix pat.toList s.toList

/-- Python `s.startswith(pat)`. -/
def strStartsWith (s pat : String) : Bool := listStarts pat.toList s.toList

/-- Python `s.endswith(pat)`. -/
def strEndsWith (s pat : String) : Bool :=
  listStarts pat.toList.reverse s.toList.reverse

/-- Python `s.removeprefix(pat)`. -/
def strRemovePre (pat s : String) : String :=
  if strStartsWith s pat then String.mk (s.toList.drop pat.toList.length) else s

/-- Python `s.lower()` (ASCII case fold, which is all the script needs). -/
def pyLower (s : String) : String := String.mk (s.toList.map Char.toLower)

/-- Lexicographic (code-point) comparison of char lists, Python string `<=`. -/
def listLe : List Char → List Char → Bool
  | [], _ => true
  | _ :: _, [] => false
  | a :: as, b :: bs =>
    if a.toNat < b.toNat then true
    else if b.toNat < a.toNat then false
    else listLe as bs

/-- Python string comparison `a <= b`. -/
def strLe (a b : String) : Bool := listLe a.toList b.toList

/-- Insert a string into an ascending list (helper for `pySorted`). -/
def insSorted (x : String) : List String → List String
  | [] => [x]
  | y :: ys => if strLe x y then x :: y :: ys else y :: insSorted x ys

/-- Python `sorted(strings)`.  On lists of strings any correct ascending sort
agrees with Python's stable sort, because equal strings are identical. -/
def pySorted (l : List String) : List String := l.foldr insSorted []

/-! ## Association lists modelling Python dicts -/

/-- Dict lookup: value of the first (and in a dict, only) entry with key `k`. -/
def alGet {κ β : Type} [DecidableEq κ] : List (κ × β) → κ → Option β
  | [], _ => none
  | p :: ps, k => if p.1 = k then some p.2 else alGet ps k

/-- Dict assignment `d[k] = v`: overwrite in place keeping the entry's
position, or append a new entry at the end. -/
def alSet {κ β : Type} [DecidableEq κ] : List (κ × β) → κ → β → List (κ × β)
  | [], k, v => [(k, v)]
  | p :: ps, k, v => if p.1 = k then (k, v) :: ps else p :: alSet ps k v

/-- Python `d.setdefault(k, []).append(i)`. -/
def sdApp {κ : Type} [DecidableEq κ] (m : List (κ × List Nat)) (k : κ) (i : Nat) :
    List (κ × List Nat) :=
  match alGet m k with
  | some l => alSet m k (l ++ [i])
  | none => m ++ [(k, [i])]

/-! ## Constants of the script -/

def OPTS_START : String := "struct LongShort aliases[]= \x7b"

def OPTS_END : String := "\x7d;"

def JS_PARAMS_START : String := "BEGIN GENERATED CURL OPTIONS"

def JS_PARAMS_END : String := "END GENERATED CURL OPTIONS"

def BOOL_TYPES : List String := ["FALSE", "ARG_BOOL", "ARG_NONE"]

def STR_TYPES : List String := ["TRUE", "ARG_STRING", "ARG_FILENAME"]

def DESC_TYPES : List String := BOOL_TYPES ++ STR_TYPES

/-- The `DUPES` table, keyed by the sorted tuple of colliding long names. -/
def DUPES : List (List String × String) :=
  [ (["krb", "krb4"], "krb"),
    (["http-request", "request"], "request"),
    (["ftp-ascii", "use-ascii"], "use-ascii"),
    (["ftp-port", "ftpport"], "ftp-port"),
    (["socks", "socks5"], "socks5"),
    (["socks", "socks5ip"], "socks5"),
    (["ftp-ssl", "ssl"], "ssl"),
    (["ftp-ssl-reqd", "ssl-reqd"], "ssl-reqd"),
    (["proxy-service-name", "socks5-gssapi-service"], "proxy-service-name") ]

/-- Python `lnames in DUPES` / `DUPES[lnames]` combined into one lookup. -/
def DUPES_get (k : List String) : Option String :=
  (DUPES.find? (fun p => p.1 == k)).map (·.2)

/-- The `NAME_SPECIAL_CASES` table; a `none` value models Python `None`
(which makes `special_case_names` delete the `name` key). -/
def NAME_SPECIAL_CASES : List (String × Option String) :=
  [ ("ftp-ssl", some "ssl"),
    ("no-ftp-ssl", some "ssl"),
    ("ftp-ssl-reqd", some "ssl-reqd"),
    ("no-ftp-ssl-reqd", some "ssl-reqd"),
    ("ftp-ascii", some "use-ascii"),
    ("ftpport", some "ftp-port"),
    ("krb4", some "krb"),
    ("socks5-gssapi-service", some "proxy-service-name"),
    ("socks5", none) ]

/-! ## Data model -/

/-- One option definition as it appears in one snapshot: the Python dict with
keys `letter`, `lname`, `desc` and the optional keys `name` and `expand`
(absent keys are `none`).  Python dict equality is field equality. -/
structure Alias where
  letter : String
  lname : String
  desc : String
  name : Option String := none
  expand : Option Bool := none
deriving DecidableEq, Repr

/-- Commit metadata: the Python dict `{"hash": ..., "timestamp": ...}`. -/
structure CommitMeta where
  hash : String
  timestamp : Int
deriving DecidableEq, Repr

/-! ## Snapshot Extractor: `get_aliases` -/

/-- Parse the payload of one struct-literal entry line (the body of the
`for` loop of `get_aliases` from the first `split` on).  Errors model the
`ValueError`s Python would raise (tuple-unpack failure, unknown desc); the
`1 > len(letter) > 2` length check is transcribed exactly as written in the
source, chained comparison included. -/
def parse_alias_line (line : String) : Except String Alias := do
  let body := pyStripChars ['\x7b', '\x7d', ','] (pyStrip (beforeComment line))
  match pySplitComma body with
  | [f0, f1, f2] =>
    let letter := pyStripChars ['"'] (pyStrip f0)
    let lname := pyStripChars ['"'] (pyStrip f1)
    let desc := pyStrip f2
    if ¬ (desc ∈ DESC_TYPES) then
      .error ("unknown desc: " ++ desc)
    else if 1 > letter.length ∧ letter.length > 2 then
      .error ("letter form of --" ++ lname ++ " must be 1 or 2 characters long")
    else
      .ok { letter := letter, lname := lname, desc := desc }
  | _ => .error "ValueError: wrong number of fields to unpack"

/-- First loop of `get_aliases`: drop lines up to and including the first line
containing `OPTS_START` (if none, the shared iterator is exhausted and the
second loop sees nothing). -/
def find_start : List String → List String
  | [] => []
  | l :: ls => if strContains l OPTS_START then ls else find_start ls

/-- State threaded through the main loop of `get_aliases`: the `aliases` dict,
the global `warned_repeats` set, and the warnings emitted so far (recorded as
the repeated long name). -/
def GAState : Type := List (String × Alias) × List String × List String

/-- The duplicate-handling tail of the loop body of `get_aliases`: compare
with the stored entry, warn once per long name (extending `warned_repeats`
and emitting a warning), then `aliases[lname] = alias` unconditionally. -/
def ga_record (st : GAState) (a : Alias) : GAState :=
  match st with
  | (dict, warned, warns) =>
    match alGet dict a.lname with
    | some old =>
      if old ≠ a ∧ ¬ (a.lname ∈ warned) then
        (alSet dict a.lname a, warned ++ [a.lname], warns ++ [a.lname])
      else (alSet dict a.lname a, warned, warns)
    | none => (alSet dict a.lname a, warned, warns)

/-- Main loop of `get_aliases` over the remaining lines. -/
def ga_loop : List String → GAState → Except String GAState
  | [], st => .ok st
  | l :: ls, st =>
    let line := pyStrip l
    if strEndsWith line OPTS_END then .ok st
    else if ¬ strStartsWith line "\x7b" then ga_loop ls st
    else do
      let a ← parse_alias_line line
      ga_loop ls (ga_record st a)

/-- Python `get_aliases(file_contents)`.  The global `warned_repeats` set is
passed in and returned explicitly; the third component of the result is the
list of duplicate warnings emitted during this call. -/
def get_aliases (warned : List String) (contents : String) :
    Except String (List Alias × List String × List String) := do
  let lines := pySplitlines contents
  let (dict, warned, warns) ← ga_loop (find_start lines) ([], warned, [])
  .ok (dict.map (·.2), warned, warns)

/-! ## `consecutive_runs` -/

/-- Loop of `consecutive_runs` over the remaining elements; `run` is the
current run (never empty: Python reads `run[0]` and `run[-1]`, rendered as
`headD 0` / `getLastD 0`), `prev` the previous sequence element. -/
def crGo (run : List Nat) (runs : List (Nat × Nat)) (prev : Nat) :
    List Nat → Except String (List (Nat × Nat))
  | [] => .ok (runs ++ [(run.headD 0, run.getLastD 0)])
  | cur :: rest =>
    if cur = prev + 1 then crGo (run ++ [cur]) runs cur rest
    else if cur = prev then .error "overlapping range: {seq}"
    else crGo [cur] (runs ++ [(run.headD 0, run.getLastD 0)]) cur rest

/-- Python `consecutive_runs(seq)`.  The error string is the literal text of
the source (the `raise` uses a plain, not an `f`-, string). -/
def consecutive_runs (seq : List Nat) : Except String (List (Nat × Nat)) :=
  match seq with
  | [] => .ok []
  | x :: rest => crGo [x] [] x rest

/-! ## Normalizer pipeline -/

/-- Python `add_names(aliases)`: for boolean-typed records, strip the `no-`
or `disable-` negation marker into `name` (two sequential `if`s, as in the
source). -/
def add_names (aliases : List Alias) : List Alias :=
  aliases.map (fun a =>
    if a.desc ∈ BOOL_TYPES then
      let a := if strStartsWith a.lname "no-" then
        { a with name := some (strRemovePre "no-" a.lname) } else a
      let a := if strStartsWith a.lname "disable-" then
        { a with name := some (strRemovePre "disable-" a.lname) } else a
      a
    else a)

/-- Python `simplify_desc(aliases, implicit_no)`: collapse the historical
type vocabulary; `FALSE` means `ARG_BOOL` after the implicit-no cutover and
`ARG_NONE` before it. -/
def simplify_desc (aliases : List Alias) (implicit_no : Bool) : List Alias :=
  aliases.map (fun a =>
    let d := match a.desc with
      | "FALSE" => if implicit_no then "ARG_BOOL" else "ARG_NONE"
      | "TRUE" => "ARG_STRING"
      | "ARG_FILENAME" => "ARG_STRING"
      | d => d
    { a with desc := d })

/-- Python `seen_letters.setdefault(letter, []).append(lname)`. -/
def sdStr (m : List (String × List String)) (k v : String) :
    List (String × List String) :=
  match alGet m k with
  | some l => alSet m k (l ++ [v])
  | none => m ++ [(k, [v])]

/-- First loop of `group_same`: the `seen_letters` dict from short letter to
the list of long names carrying it, in order of appearance. -/
def seen_letters (aliases : List Alias) : List (String × List String) :=
  aliases.foldl (fun m a => sdStr m a.letter a.lname) []

/-- The error text of `group_same` (Python `repr` quoting of the tuple and the
letter elided; the colliding long names and the letter appear verbatim). -/
def group_same_err (lnames : List String) (letter : String) : String :=
  "The options (" ++ String.intercalate ", " lnames ++
    ") are the same option, they have the same letter " ++ letter ++
    ". Which one is the main one?"

/-- One step of the second loop of `group_same`: sort the letter's long
names, and for a collision either fail (not registered in `DUPES`) or record
the canonical winner. -/
def gs_step (d : List (String × String)) (p : String × List String) :
    Except String (List (String × String)) :=
  let lnames := pySorted p.2
  if lnames.length > 1 then
    match DUPES_get lnames with
    | none => .error (group_same_err lnames p.1)
    | some w => pure (alSet d p.1 w)
  else pure d

/-- Second loop of `group_same`: build the `dup_aliases` dict from letter to
canonical winner, failing on the first collision not registered in `DUPES`. -/
def dup_aliases (seen : List (String × List String)) :
    Except String (List (String × String)) :=
  seen.foldlM gs_step []

/-- Python `group_same(aliases)`. -/
def group_same (aliases : List Alias) : Except String (List Alias) := do
  let dup ← dup_aliases (seen_letters aliases)
  pure (aliases.map (fun a =>
    match alGet dup a.letter with
    | some w => if a.lname ≠ w then { a with name := some w } else a
    | none => a))

/-- The synthesized `--no-` sibling of a boolean record (`{**alias, ...}` with
`name` defaulted to the original's `lname` and `expand` forced to `False`). -/
def mk_no_alias (a : Alias) : Alias :=
  { a with
    lname := "no-" ++ a.lname,
    name := some (a.name.getD a.lname),
    expand := some false }

/-- Python `aliases.insert(i, x)` (for `i ≤ len`, the only case that occurs). -/
def pyInsertAt {α : Type} (l : List α) (i : Nat) (x : α) : List α :=
  l.take i ++ x :: l.drop i

/-- Python `add___no(aliases)`: collect `(idx + 1, no_alias)` pairs for every
record that is `ARG_BOOL` on entry, rewrite `ARG_NONE` to `ARG_BOOL`, then
perform the collected inserts one after another (each insert shifting the
positions the later inserts land on, exactly as `list.insert` does). -/
def add___no (aliases : List Alias) : List Alias :=
  let to_insert := aliases.enum.filterMap (fun p =>
    if p.2.desc = "ARG_BOOL" then some (p.1 + 1, mk_no_alias p.2) else none)
  let aliases := aliases.map (fun a =>
    if a.desc = "ARG_NONE" then { a with desc := "ARG_BOOL" } else a)
  to_insert.foldl (fun l p => pyInsertAt l p.1 p.2) aliases

/-- Python `special_case_names(aliases)`: force (or delete) `name` according
to the fixed table. -/
def special_case_names (aliases : List Alias) : List Alias :=
  aliases.map (fun a =>
    match alGet NAME_SPECIAL_CASES a.lname with
    | some v => { a with name := v }
    | none => a)

/-! ## Timeline Reconciler: `find_deleted` -/

/-- The long-form Identity Key: every dict entry except `letter`
(`tuple({k: v for k, v in alias.items() if k != "letter"}.items())`; the key
insertion order of the alias dicts produced by the pipeline is uniform, so
tuple equality is field equality). -/
structure LongKey where
  lname : String
  desc : String
  name : Option String := none
  expand : Option Bool := none
deriving DecidableEq, Repr

def longKey (a : Alias) : LongKey := ⟨a.lname, a.desc, a.name, a.expand⟩

/-- The short-form Identity Key `(alias["letter"], alias.get("name", alias["lname"]))`. -/
def shortKey (a : Alias) : String × String := (a.letter, a.name.getD a.lname)

/-- The body of the collection loop of `find_deleted` for one alias at one
snapshot index: register the long key always, the short key only for
single-character letters on records without a `name`. -/
def collectStep (st : List (LongKey × List Nat) × List ((String × String) × List Nat))
    (idx : Nat) (a : Alias) :
    List (LongKey × List Nat) × List ((String × String) × List Nat) :=
  (sdApp st.1 (longKey a) idx,
   if a.letter.length = 1 ∧ a.name = none then sdApp st.2 (shortKey a) idx else st.2)

/-- The two collection dicts `long_args` / `short_args` of `find_deleted`
before run computation. -/
def collectAll (tl : List (CommitMeta × List Alias)) :
    List (LongKey × List Nat) × List ((String × String) × List Nat) :=
  tl.enum.foldl (fun st p => p.2.2.foldl (fun st a => collectStep st p.1 a) st)
    ([], [])

/-- Python `max` over a list of naturals (the script only applies it to
non-empty lists). -/
def listMax (l : List Nat) : Nat := l.foldl max 0

/-- Translate runs into lifetime intervals:
`(start if start > 0 else None, end+1 if end+1 < N else None)`. -/
def lifetimesOf (N : Nat) (runs : List (Nat × Nat)) :
    List (Option Nat × Option Nat) :=
  runs.map (fun r =>
    (if r.1 > 0 then some r.1 else none,
     if r.2 + 1 < N then some (r.2 + 1) else none))

/-- A final long-form output record (`new_arg_data`; the dict holds the keys
`type`, `name`, `deleted`, `expand` when present). -/
structure FinalLongArg where
  type : String
  name : Option String := none
  deleted : Option String := none
  expand : Option Bool := none
deriving DecidableEq, Repr

/-- A final short-form output record (`arg_data` of the short loop). -/
structure ShortArg where
  long : String
  deleted : Option String := none
deriving DecidableEq, Repr

/-- The body of the long-form output loop of `find_deleted` for one
`(identity key, runs)` pair. -/
def mkLongItem (N : Nat) (to_hash : Nat → String) (k : LongKey)
    (runs : List (Nat × Nat)) : String × FinalLongArg :=
  let lifetimes := lifetimesOf N runs
  let ty := pyLower (strRemovePre "ARG_" k.desc)
  let name := match k.name with
    | some n => some n
    | none =>
      -- one arg had a trailing space
      let nm := pyStrip k.lname
      if nm ≠ k.lname then some nm else none
  let ends := lifetimes.map (·.2)
  let deleted :=
    if ends.all (·.isSome) then some (to_hash (listMax (ends.filterMap id)))
    else none
  (k.lname, { type := ty, name := name, deleted := deleted, expand := k.expand })

/-- The body of the short-form output loop of `find_deleted` for one
`((letter, long), runs)` pair, including the `-N` special case. -/
def mkShortItem (N : Nat) (to_hash : Nat → String) (k : String × String)
    (runs : List (Nat × Nat)) : String × ShortArg :=
  let lifetimes := lifetimesOf N runs
  let long := if k.1 = "N" then "no-" ++ k.2 else k.2
  let ends := lifetimes.map (·.2)
  let deleted :=
    if ends.all (·.isSome) then some (to_hash (listMax (ends.filterMap id)))
    else none
  (k.1, { long := long, deleted := deleted })

/-- The update of `new_short_args` for one short item: first registration
wins unless the stored record's `deleted` value is truthy (a non-empty
string), in which case the newcomer replaces it. -/
def shortFoldStep (d : List (String × ShortArg)) (it : String × ShortArg) :
    List (String × ShortArg) :=
  match alGet d it.1 with
  | some prev =>
    if (prev.deleted.getD "") ≠ "" then alSet d it.1 it.2 else d
  | none => alSet d it.1 it.2

/-- Python `find_deleted(aliases_over_time)`.  The `pprint`/`print`
diagnostics of the source are pure output and do not affect the returned
value; the commented-out metalink/sasl notes likewise.  `to_hash` is the
dict from snapshot index to commit hash (indices used are always in range). -/
def find_deleted (tl : List (CommitMeta × List Alias)) :
    Except String (List (String × FinalLongArg) × List (String × ShortArg)) := do
  let hashes := tl.map (fun p => p.1.hash)
  let to_hash := fun i => hashes.getD i ""
  let (lraw, sraw) := collectAll tl
  let long_args ← lraw.mapM (fun p => do
    let r ← consecutive_runs p.2
    pure (p.1, r))
  let short_args ← sraw.mapM (fun p => do
    let r ← consecutive_runs p.2
    pure (p.1, r))
  let new_long_args := long_args.map (fun p => mkLongItem tl.length to_hash p.1 p.2)
  let shortItems := short_args.map (fun p => mkShortItem tl.length to_hash p.1 p.2)
  let new_short_args := shortItems.foldl shortFoldStep []
  pure (new_long_args, new_short_args)

/-! ## Output rewrite (`__main__`, lines 495-514) -/

/-- First read loop: copy lines up to and including the line containing the
start marker; `none` models the `for`-`else` `raise` when the marker is
absent. -/
def rw_loop1 : List String → List String → Option (List String × List String)
  | [], _ => none
  | l :: ls, acc =>
    if strContains l JS_PARAMS_START then some (acc ++ [l], ls)
    else rw_loop1 ls (acc ++ [l])

/-- Second read loop: skip the old generated lines, keeping the line
containing the end marker; `none` models the `for`-`else` `raise`. -/
def rw_loop2 : List String → Option (String × List String)
  | [] => none
  | l :: ls => if strContains l JS_PARAMS_END then some (l, ls) else rw_loop2 ls

/-- The output-file rewrite of `__main__` over the file's lines: lines through
the start marker, then the generated lines, then the end-marker line and
everything after it (error text abbreviated; Python `repr` quoting elided). -/
def rewrite_output (fileLines gen : List String) : Except String (List String) :=
  match rw_loop1 fileLines [] with
  | none => .error ("// " ++ JS_PARAMS_START ++ " not in OUTPUT_FILE")
  | some (pre, rest) =>
    match rw_loop2 rest with
    | none => .error ("// " ++ JS_PARAMS_END ++ " not in OUTPUT_FILE")
    | some (endLine, post) => .ok (pre ++ gen ++ endLine :: post)

/-! ## Specification-side definitions

These definitions do not embed source code; they phrase the properties the
claims assert, to be compared with the embedded functions. -/

/-- The keys of an association list. -/
def alKeys {κ β : Type} (d : List (κ × β)) : List κ := d.map (·.1)

/-- The last record of `ps` carrying the long name `l` ("the later definition
wins" rule of the spec). -/
def lastWithLname (l : String) : List Alias → Option Alias
  | [] => none
  | a :: ps =>
    match lastWithLname l ps with
    | some b => some b
    | none => if a.lname = l then some a else none

/-- The sequence of struct-literal entries `get_aliases` parses, in source
order and with duplicates kept (used to state the "last duplicate wins"
property of the extractor). -/
def ga_entries : List String → Except String (List Alias)
  | [] => .ok []
  | l :: ls =>
    let line := pyStrip l
    if strEndsWith line OPTS_END then .ok []
    else if ¬ strStartsWith line "\x7b" then ga_entries ls
    else do
      let a ← parse_alias_line line
      let rest ← ga_entries ls
      pure (a :: rest)

/-- A list contains two equal adjacent elements (in a non-decreasing
sequence this is equivalent to containing a repeated element). -/
def adjDup : List Nat → Prop
  | a :: b :: t => a = b ∨ adjDup (b :: t)
  | _ => False

/-- The short-letter survival rule the code implements, phrased from the
amended claim: the stored record survives unless its `deleted` value is
truthy, in which case the next registration (deleted or not) replaces it. -/
def shortSurvivorStep (acc : Option ShortArg) (a : ShortArg) : Option ShortArg :=
  match acc with
  | none => some a
  | some p => if (p.deleted.getD "") ≠ "" then some a else some p

/-- The final short-form record for a letter, per the amended claim: fold the
survival rule over the records registered for that letter, in order. -/
def shortSurvivor (its : List ShortArg) : Option ShortArg :=
  its.foldl shortSurvivorStep none

/-- The number of records of a snapshot carrying the long-form Identity Key
`K`. -/
def longCount (K : LongKey) (snap : List Alias) : Nat :=
  (snap.filter (fun a => longKey a = K)).length

/-- Append to an optional accumulated index list, `none` meaning "key not
yet registered" (mirrors `setdefault` observationally). -/
def optApp (o : Option (List Nat)) (l : List Nat) : Option (List Nat) :=
  match o with
  | some x => some (x ++ l)
  | none => if l = [] then none else some l

/-- The snapshot indices at which the long-form key `K` occurs (with
multiplicity), read off an enumerated timeline. -/
def longIdxs (K : LongKey) : List (Nat × (CommitMeta × List Alias)) → List Nat
  | [] => []
  | p :: ps => List.replicate (longCount K p.2.2) p.1 ++ longIdxs K ps

/-- The snapshot-index-to-commit-hash mapping (`to_hash`) of a timeline. -/
def hashFnOf (tl : List (CommitMeta × List Alias)) : Nat → String :=
  fun i => (tl.map (fun p => p.1.hash)).getD i ""

/-! ## Concrete inputs used by counterexamples and witnesses -/

/-- A string-typed option record used by the ten-snapshot timeline. -/
def fooStr : Alias := { letter := "f", lname := "foo", desc := "ARG_STRING" }

/-- A ten-snapshot timeline whose only key is present at indices 2, 3, 4. -/
def tlTen : List (CommitMeta × List Alias) :=
  [ (⟨"h0", 0⟩, []), (⟨"h1", 0⟩, []),
    (⟨"h2", 0⟩, [fooStr]), (⟨"h3", 0⟩, [fooStr]), (⟨"h4", 0⟩, [fooStr]),
    (⟨"h5", 0⟩, []), (⟨"h6", 0⟩, []), (⟨"h7", 0⟩, []),
    (⟨"h8", 0⟩, []), (⟨"h9", 0⟩, []) ]

/-- A four-snapshot timeline in which two different long names carry the
short letter `a` in disjoint epochs and both end up deleted. -/
def tlShort : List (CommitMeta × List Alias) :=
  [ (⟨"h0", 0⟩, [{ letter := "a", lname := "x", desc := "ARG_STRING" }]),
    (⟨"h1", 0⟩, [{ letter := "a", lname := "y", desc := "ARG_STRING" }]),
    (⟨"h2", 0⟩, []),
    (⟨"h3", 0⟩, []) ]

/-- A three-snapshot timeline whose single key is present in every snapshot. -/
def tlVerbose : List (CommitMeta × List Alias) :=
  [ (⟨"h0", 0⟩, [{ letter := "v", lname := "verbose", desc := "ARG_BOOL" }]),
    (⟨"h1", 0⟩, [{ letter := "v", lname := "verbose", desc := "ARG_BOOL" }]),
    (⟨"h2", 0⟩, [{ letter := "v", lname := "verbose", desc := "ARG_BOOL" }]) ]

/-- The long-form Identity Key of the `verbose` records of `tlVerbose`. -/
def verboseKey : LongKey := { lname := "verbose", desc := "ARG_BOOL" }

/-- A boolean record named `foo` with no `name`. -/
def fooBool : Alias := { letter := "a", lname := "foo", desc := "ARG_BOOL" }

/-- A boolean record named `bar` with no `name`. -/
def barBool : Alias := { letter := "b", lname := "bar", desc := "ARG_BOOL" }

/-- File contents whose single struct-literal entry has a three-character
short-letter field. -/
def badLetterContents : String :=
  "struct LongShort aliases[]= \x7b\n  \x7b\"abc\", \"foo\", TRUE\x7d,\n\x7d;\n"

/-- A concrete index-to-hash function for witnesses. -/
def natHash : Nat → String := hashFnOf tlTen

/-- File contents in which the long name `foo` is defined twice with
different field values. -/
def dupRepeatContents : String :=
  "struct LongShort aliases[]= \x7b\n  \x7b\"a\", \"foo\", TRUE\x7d,\n  \x7b\"a\", \"foo\", FALSE\x7d,\n\x7d;\n"

/-! ## Helper lemmas about the dict model -/

theorem alGet_alSet {κ β : Type} [DecidableEq κ] (d : List (κ × β)) (k l : κ) (v : β) :
    alGet (alSet d k v) l = if k = l then some v else alGet d l := by
  induction d with
  | nil =>
    by_cases h : k = l <;> simp [alSet, alGet, h]
  | cons p ps ih =>
    obtain ⟨a, b⟩ := p
    by_cases hak : a = k
    · subst hak
      by_cases hal : a = l <;> simp [alSet, alGet, hal]
    · by_cases hal : a = l
      · have hkl : ¬ k = l := fun h => hak (hal.trans h.symm)
        have hlk : ¬ l = k := fun h => hkl h.symm
        simp [alSet, alGet, hak, hal, hkl, hlk]
      · simp [alSet, alGet, hak, hal, ih]

theorem alGet_append_left {κ β : Type} [DecidableEq κ] (d₁ d₂ : List (κ × β)) (k : κ)
    (v : β) (h : alGet d₁ k = some v) : alGet (d₁ ++ d₂) k = some v := by
  induction d₁ with
  | nil => simp [alGet] at h
  | cons p ps ih =>
    by_cases hpk : p.1 = k
    · simp [alGet, hpk] at h ⊢; exact h
    · simp [alGet, hpk] at h ⊢; exact ih h

theorem alGet_append_right {κ β : Type} [DecidableEq κ] (d₁ d₂ : List (κ × β)) (k : κ)
    (h : alGet d₁ k = none) : alGet (d₁ ++ d₂) k = alGet d₂ k := by
  induction d₁ with
  | nil => simp
  | cons p ps ih =>
    by_cases hpk : p.1 = k
    · simp [alGet, hpk] at h
    · simp [alGet, hpk] at h ⊢; exact ih h

theorem alGet_sdApp_self {κ : Type} [DecidableEq κ] (m : List (κ × List Nat)) (k : κ)
    (i : Nat) : alGet (sdApp m k i) k = some ((alGet m k).getD [] ++ [i]) := by
  unfold sdApp
  cases h : alGet m k with
  | some l => simp [alGet_alSet, h]
  | none => simp [alGet_append_right _ _ _ h, alGet]

theorem alGet_sdApp_other {κ : Type} [DecidableEq κ] (m : List (κ × List Nat)) (k l : κ)
    (i : Nat) (hkl : k ≠ l) : alGet (sdApp m k i) l = alGet m l := by
  unfold sdApp
  cases h : alGet m k with
  | some w => simp [alGet_alSet, hkl]
  | none =>
    cases hl : alGet m l with
    | some w => exact alGet_append_left _ _ _ _ hl
    | none => rw [alGet_append_right _ _ _ hl]; simp [alGet, hkl]

theorem alGet_mem {κ β : Type} [DecidableEq κ] (d : List (κ × β)) (k : κ) (v : β)
    (h : alGet d k = some v) : (k, v) ∈ d := by
  induction d with
  | nil => simp [alGet] at h
  | cons p ps ih =>
    obtain ⟨a, b⟩ := p
    by_cases hak : a = k
    · subst hak
      simp [alGet] at h
      subst h
      exact List.mem_cons_self _ _
    · simp [alGet, hak] at h
      exact List.mem_cons_of_mem _ (ih h)

theorem alGet_eq_none {κ β : Type} [DecidableEq κ] (d : List (κ × β)) (k : κ) :
    alGet d k = none ↔ k ∉ alKeys d := by
  induction d with
  | nil => simp [alGet, alKeys]
  | cons p ps ih =>
    obtain ⟨a, b⟩ := p
    by_cases hak : a = k
    · subst hak; simp [alGet, alKeys]
    · have hka : ¬ k = a := fun h => hak h.symm
      simp [alGet, alKeys, hak, hka] at ih ⊢
      exact ih

theorem alKeys_cons {κ β : Type} (p : κ × β) (d : List (κ × β)) :
    alKeys (p :: d) = p.1 :: alKeys d := rfl

theorem alKeys_alSet {κ β : Type} [DecidableEq κ] (d : List (κ × β)) (k : κ) (v : β) :
    alKeys (alSet d k v) = if k ∈ alKeys d then alKeys d else alKeys d ++ [k] := by
  induction d with
  | nil => simp [alSet, alKeys]
  | cons p ps ih =>
    obtain ⟨a, b⟩ := p
    by_cases hak : a = k
    · subst hak; simp [alSet, alKeys]
    · have hka : ¬ k = a := fun h => hak h.symm
      have halset : alSet ((a, b) :: ps) k v = (a, b) :: alSet ps k v := by
        simp [alSet, hak]
      rw [halset, alKeys_cons, alKeys_cons, ih]
      by_cases hk : k ∈ alKeys ps
      · simp [hk, List.mem_cons, hka]
      · simp [hk, List.mem_cons, hka]

theorem alKeys_nodup_alSet {κ β : Type} [DecidableEq κ] (d : List (κ × β)) (k : κ)
    (v : β) (h : (alKeys d).Nodup) : (alKeys (alSet d k v)).Nodup := by
  rw [alKeys_alSet]
  by_cases hk : k ∈ alKeys d
  · simpa [hk]
  · simpa [hk, List.nodup_append] using h

theorem alGet_of_mem_nodup {κ β : Type} [DecidableEq κ] (d : List (κ × β)) (k : κ)
    (v : β) (hnd : (alKeys d).Nodup) (h : (k, v) ∈ d) : alGet d k = some v := by
  induction d with
  | nil => simp at h
  | cons p ps ih =>
    rcases List.mem_cons.mp h with h | h
    · subst h; simp [alGet]
    · have hk : k ∈ alKeys ps := List.mem_map.mpr ⟨(k, v), h, rfl⟩
      have hpk : ¬ p.1 = k := by
        intro he
        exact (List.nodup_cons.mp (by simpa [alKeys] using hnd)).1 (he ▸ hk)
      simp [alGet, hpk]
      exact ih (List.nodup_cons.mp (by simpa [alKeys] using hnd)).2 h

/-! ## Lemmas about `consecutive_runs` -/

theorem crGo_ok_of_strict (rest : List Nat) :
    ∀ (run : List Nat) (runs : List (Nat × Nat)) (prev a : Nat),
      run ≠ [] → run.headD 0 = a → a ≤ prev → run.getLastD 0 = prev →
      (∀ r ∈ runs, r.1 ≤ r.2) →
      runs.Pairwise (fun r s => r.2 + 1 < s.1) →
      (∀ r ∈ runs, r.2 + 1 < a) →
      List.Chain' (· < ·) (prev :: rest) →
      ∃ out, crGo run runs prev rest = .ok out ∧
        (∀ r ∈ out, r.1 ≤ r.2) ∧ out.Pairwise (fun r s => r.2 + 1 < s.1) := by
  induction rest with
  | nil =>
    intro run runs prev a hne hh hap hl hle hpw hgap _
    refine ⟨runs ++ [(run.headD 0, run.getLastD 0)], rfl, ?_, ?_⟩
    · intro r hr
      rcases List.mem_append.mp hr with hr | hr
      · exact hle r hr
      · obtain rfl := List.mem_singleton.mp hr
        dsimp only
        rw [hh, hl]
        exact hap
    · refine List.pairwise_append.mpr ⟨hpw, List.pairwise_singleton _ _, ?_⟩
      intro r hr s hs
      obtain rfl := List.mem_singleton.mp hs
      dsimp only
      rw [hh]
      exact hgap r hr
  | cons cur rest ih =>
    intro run runs prev a hne hh hap hl hle hpw hgap hch
    obtain ⟨hlt, hch'⟩ := List.chain'_cons.mp hch
    by_cases h1 : cur = prev + 1
    · rw [crGo, if_pos h1]
      refine ih (run ++ [cur]) runs cur a ?_ ?_ ?_ ?_ hle hpw hgap (h1 ▸ hch')
      · simp
      · cases run with
        | nil => exact absurd rfl hne
        | cons x t => simpa using hh
      · exact le_trans hap (le_of_lt hlt)
      · simp
    · have h0 : ¬ cur = prev := fun h => absurd (h ▸ hlt) (lt_irrefl _)
      rw [crGo, if_neg h1, if_neg h0]
      have hgt : prev + 1 < cur := lt_of_le_of_ne hlt (fun hh => h1 hh.symm)
      refine ih [cur] (runs ++ [(run.headD 0, run.getLastD 0)]) cur cur ?_ rfl
        (le_refl _) rfl ?_ ?_ ?_ hch'
      · simp
      · intro r hr
        rcases List.mem_append.mp hr with hr | hr
        · exact hle r hr
        · obtain rfl := List.mem_singleton.mp hr
          dsimp only
          rw [hh, hl]
          exact hap
      · refine List.pairwise_append.mpr ⟨hpw, List.pairwise_singleton _ _, ?_⟩
        intro r hr s hs
        obtain rfl := List.mem_singleton.mp hs
        dsimp only
        rw [hh]
        exact hgap r hr
      · intro r hr
        rcases List.mem_append.mp hr with hr | hr
        · have := hgap r hr
          omega
        · obtain rfl := List.mem_singleton.mp hr
          dsimp only
          rw [hl]
          exact hgt

theorem crGo_err_of_adjDup (rest : List Nat) :
    ∀ (run : List Nat) (runs : List (Nat × Nat)) (prev : Nat),
      adjDup (prev :: rest) →
      crGo run runs prev rest = .error "overlapping range: {seq}" := by
  induction rest with
  | nil => intro run runs prev h; exact absurd h (by simp [adjDup])
  | cons cur rest ih =>
    intro run runs prev h
    by_cases h0 : cur = prev
    · have h1 : ¬ cur = prev + 1 := by omega
      rw [crGo, if_neg h1, if_pos h0]
    · have hd : adjDup (cur :: rest) := by
        rcases h with h | h
        · exact absurd h.symm h0
        · exact h
      by_cases h1 : cur = prev + 1
      · rw [crGo, if_pos h1]; exact ih _ _ _ hd
      · rw [crGo, if_neg h1, if_neg h0]; exact ih _ _ _ hd

theorem adjDup_of_sorted_not_nodup (l : List Nat) (hs : l.Chain' (· ≤ ·))
    (hn : ¬ l.Nodup) : adjDup l := by
  induction l with
  | nil => exact absurd List.nodup_nil hn
  | cons a t iht =>
    cases t with
    | nil => exact absurd (List.nodup_singleton a) hn
    | cons b t =>
      by_cases hab : a = b
      · exact Or.inl hab
      · right
        apply iht hs.tail
        intro hnd
        apply hn
        rw [List.nodup_cons]
        refine ⟨?_, hnd⟩
        intro hmem
        have hp : (a :: b :: t).Pairwise (· ≤ ·) := List.chain'_iff_pairwise.mp hs
        rcases List.mem_cons.mp hmem with h | h
        · exact hab h
        · have hba : b ≤ a :=
            (List.pairwise_cons.mp (List.pairwise_cons.mp hp).2).1 a h
          have hab' : a ≤ b := (List.pairwise_cons.mp hp).1 b (List.mem_cons_self _ _)
          exact hab (le_antisymm hab' hba)

/-! ## Claim theorems: C2, C3, C4 -/

/-- C2 (amended): for every strictly increasing index sequence,
`consecutive_runs` succeeds and returns runs that are pairwise
non-overlapping, each with start ≤ end, separated by a gap of at least one
absent index; and for every non-decreasing (sorted) sequence containing a
repeated index it fails with the overlap error.  (The claim's stronger
version — failure for *every* sequence containing a repeated index — is
refuted by `C2_cex`.) -/
theorem C2_thm (seq : List Nat) :
    (seq.Chain' (· < ·) →
      ∃ runs, consecutive_runs seq = .ok runs ∧
        (∀ r ∈ runs, r.1 ≤ r.2) ∧
        runs.Pairwise (fun r s => r.2 + 1 < s.1)) ∧
    (seq.Chain' (· ≤ ·) → ¬ seq.Nodup →
      consecutive_runs seq = .error "overlapping range: {seq}") := by
  constructor
  · intro hch
    cases seq with
    | nil => exact ⟨[], rfl, by simp, List.Pairwise.nil⟩
    | cons x rest =>
      exact crGo_ok_of_strict rest [x] [] x x (by simp) rfl (le_refl x) rfl
        (by simp) List.Pairwise.nil (by simp) hch
  · intro hs hn
    cases seq with
    | nil => exact absurd List.nodup_nil hn
    | cons x rest =>
      exact crGo_err_of_adjDup rest [x] [] x
        (adjDup_of_sorted_not_nodup (x :: rest) hs hn)

/-- Witness for C2: a concrete strictly increasing sequence produces
gap-separated runs, and a concrete sorted sequence with an adjacent repeat
fails with the overlap error. -/
theorem C2_thm_witness :
    (∃ runs, consecutive_runs [2, 3, 4, 7, 8] = .ok runs ∧
      (∀ r ∈ runs, r.1 ≤ r.2) ∧
      runs.Pairwise (fun r s => r.2 + 1 < s.1)) ∧
    consecutive_runs [1, 2, 2, 3] = .error "overlapping range: {seq}" :=
  ⟨(C2_thm [2, 3, 4, 7, 8]).1 (by norm_num [List.chain'_cons]),
   (C2_thm [1, 2, 2, 3]).2 (by norm_num [List.chain'_cons]) (by decide)⟩

/-- Counterexample for C2 as frozen: the input `[1, 2, 1]` contains the
repeated index 1, yet `consecutive_runs` does not fail — the duplicate check
only fires on adjacent equal elements. -/
theorem C2_cex :
    consecutive_runs [1, 2, 1] = .ok [(1, 2), (1, 1)] ∧
    ¬ ([1, 2, 1] : List Nat).Nodup :=
  ⟨rfl, by decide⟩

/-- C3 (code bug): with two consecutive boolean records, `add___no` places
the synthesized sibling of the second record *before* it, not immediately
after it — each `insert` shifts the positions later collected inserts land
on; with a single boolean record the output matches the spec's example. -/
theorem C3_thm :
    add___no [fooBool, barBool] =
      [fooBool,
       { letter := "a", lname := "no-foo", desc := "ARG_BOOL",
         name := some "foo", expand := some false },
       { letter := "b", lname := "no-bar", desc := "ARG_BOOL",
         name := some "bar", expand := some false },
       barBool] ∧
    add___no [fooBool] =
      [fooBool,
       { letter := "a", lname := "no-foo", desc := "ARG_BOOL",
         name := some "foo", expand := some false }] := by
  exact ⟨rfl, rfl⟩

/-- C4 (code bug): a struct-literal entry whose short-letter field has
length 3 is accepted without error — the source's `1 > len(letter) > 2`
chained comparison is never true, so the intended length check is dead. -/
theorem C4_thm :
    get_aliases [] badLetterContents =
      .ok ([{ letter := "abc", lname := "foo", desc := "TRUE" }], [], []) ∧
    ("abc" : String).length = 3 := by
  exact ⟨rfl, rfl⟩

/-! ## Lemmas about `listMax` and claim C1 -/

theorem foldl_max_succ (l : List Nat) :
    ∀ a : Nat, (l.map (fun x => x + 1)).foldl max (a + 1) = l.foldl max a + 1 := by
  induction l with
  | nil => intro a; rfl
  | cons x t ih =>
    intro a
    rw [List.map_cons, List.foldl_cons, List.foldl_cons, Nat.succ_max_succ]
    exact ih (max a x)

theorem listMax_map_succ (l : List Nat) (h : l ≠ []) :
    listMax (l.map (fun x => x + 1)) = listMax l + 1 := by
  cases l with
  | nil => exact absurd rfl h
  | cons x t =>
    unfold listMax
    rw [List.map_cons, List.foldl_cons, List.foldl_cons, Nat.zero_max, Nat.zero_max]
    exact foldl_max_succ t x

/-- C1 (amended): for an identity key none of whose runs survives to the
present (`end + 1 < N` for every run), the `deleted` marker is the commit
hash at snapshot index `max(end) + 1` — the first snapshot from which the
key is absent — not at index `max(end)` itself.  (The claim's version —
the hash of the last snapshot in which the key was observed — is refuted by
`C1_cex`.) -/
theorem C1_thm (N : Nat) (to_hash : Nat → String) (k : LongKey)
    (runs : List (Nat × Nat)) (hne : runs ≠ [])
    (hall : ∀ r ∈ runs, r.2 + 1 < N) :
    (mkLongItem N to_hash k runs).2.deleted =
      some (to_hash (listMax (runs.map (fun r => r.2)) + 1)) := by
  have hends : (lifetimesOf N runs).map (fun x => x.2) =
      runs.map (fun r => some (r.2 + 1)) := by
    unfold lifetimesOf
    rw [List.map_map]
    exact List.map_congr_left (fun r hr => by simp [hall r hr])
  have hsome : runs.map (fun r => some (r.2 + 1)) =
      ((runs.map (fun r => r.2)).map (fun x => x + 1)).map some := by
    rw [List.map_map, List.map_map]
    rfl
  have hmapne : runs.map (fun r => r.2) ≠ [] := by
    cases runs with
    | nil => exact absurd rfl hne
    | cons r t => simp
  have hmax : listMax ((runs.map (fun r => some (r.2 + 1))).filterMap id) =
      listMax (runs.map (fun r => r.2)) + 1 := by
    have h1 : (runs.map (fun r => some (r.2 + 1))).filterMap id =
        (runs.map (fun r => r.2)).map (fun x => x + 1) := by
      rw [hsome]
      simp
    rw [h1, listMax_map_succ _ hmapne]
  have hcond : (runs.map (fun r => some (r.2 + 1))).all (fun x => x.isSome) = true := by
    simp
    intro x x1 x2 _ hx
    exact hx ▸ rfl
  simp only [mkLongItem, hends, hmax, hcond]
  simp

/-- Witness for C1: a single run (2, 4) in a ten-snapshot timeline is marked
deleted with the hash at index 5. -/
theorem C1_thm_witness :
    (mkLongItem 10 natHash { lname := "foo", desc := "ARG_STRING" }
        [(2, 4)]).2.deleted =
      some (natHash (listMax (([(2, 4)] : List (Nat × Nat)).map (fun r => r.2)) + 1)) ∧
    natHash (listMax (([(2, 4)] : List (Nat × Nat)).map (fun r => r.2)) + 1) = "h5" :=
  ⟨C1_thm 10 natHash _ [(2, 4)] (by decide) (by decide), rfl⟩

/-- Counterexample for C1 as frozen: in `tlTen` the key `foo` exists exactly
at snapshot indices 2–4 of 10, and `find_deleted` marks it deleted with the
hash at index 5 (`h5`), not the hash of the last snapshot in which it was
observed (index 4, `h4`). -/
theorem C1_cex :
    find_deleted tlTen =
      .ok ([("foo", { type := "string", deleted := some "h5" })],
           [("f", { long := "foo", deleted := some "h5" })]) ∧
    (tlTen.map (fun p => p.1.hash)).getD 4 "" = "h4" ∧
    some "h5" ≠ some ((tlTen.map (fun p => p.1.hash)).getD 4 "") := by
  refine ⟨rfl, rfl, by decide⟩

/-! ## Lemmas about the short-letter collapse and claim C5 -/

theorem alGet_shortFoldStep (d : List (String × ShortArg)) (it : String × ShortArg)
    (letter : String) :
    alGet (shortFoldStep d it) letter =
      if it.1 = letter then shortSurvivorStep (alGet d letter) it.2
      else alGet d letter := by
  by_cases hl : it.1 = letter
  · subst hl
    cases h : alGet d it.1 with
    | none => simp [shortFoldStep, shortSurvivorStep, h, alGet_alSet]
    | some prev =>
      by_cases ht : (prev.deleted.getD "") ≠ "" <;>
        simp [shortFoldStep, shortSurvivorStep, h, ht, alGet_alSet]
  · cases h : alGet d it.1 with
    | none => simp [shortFoldStep, h, alGet_alSet, hl]
    | some prev =>
      by_cases ht : (prev.deleted.getD "") ≠ "" <;>
        simp [shortFoldStep, h, ht, alGet_alSet, hl]

theorem shortFold_lookup (items : List (String × ShortArg)) :
    ∀ (d : List (String × ShortArg)) (letter : String),
      alGet (items.foldl shortFoldStep d) letter =
        ((items.filter (fun it => it.1 = letter)).map (·.2)).foldl
          shortSurvivorStep (alGet d letter) := by
  induction items with
  | nil => intro d letter; rfl
  | cons it items ih =>
    intro d letter
    rw [List.foldl_cons, ih]
    by_cases hl : it.1 = letter
    · simp [List.filter_cons, hl, alGet_shortFoldStep]
    · simp [List.filter_cons, hl, alGet_shortFoldStep]

theorem shortFold_keys_nodup (items : List (String × ShortArg)) :
    ∀ d : List (String × ShortArg), (alKeys d).Nodup →
      (alKeys (items.foldl shortFoldStep d)).Nodup := by
  induction items with
  | nil => intro d h; exact h
  | cons it items ih =>
    intro d h
    rw [List.foldl_cons]
    apply ih
    unfold shortFoldStep
    cases hg : alGet d it.1 with
    | none => exact alKeys_nodup_alSet _ _ _ h
    | some prev =>
      by_cases ht : (prev.deleted.getD "") ≠ "" <;> simp [ht]
      · exact alKeys_nodup_alSet _ _ _ h
      · exact h

/-- C5 (amended): when several short-letter identity keys collapse onto the
same letter, the final record for that letter is computed by folding the
survival rule over the records registered for the letter, in registration
order: the first wins unless the stored record is marked deleted, in which
case the next registration supersedes it — whether or not that newcomer is
itself deleted; and the result holds exactly one record per letter.  (The
claim's extra condition — that a later definition which is itself deleted
does not supersede — is refuted by `C5_cex`.) -/
theorem C5_thm (items : List (String × ShortArg)) (letter : String) :
    alGet (items.foldl shortFoldStep []) letter =
      shortSurvivor ((items.filter (fun it => it.1 = letter)).map (·.2)) ∧
    (alKeys (items.foldl shortFoldStep [])).Nodup := by
  constructor
  · rw [shortFold_lookup]
    rfl
  · exact shortFold_keys_nodup items [] List.nodup_nil

/-- Counterexample for C5 as frozen: in `tlShort` the letter `a` is carried
by `x` (deleted at `h1`) and later by `y` (itself deleted, at `h2`); the
later, deleted definition supersedes the first, so the final record for `a`
is `y`, not `x`. -/
theorem C5_cex :
    find_deleted tlShort =
      .ok ([("x", { type := "string", deleted := some "h1" }),
            ("y", { type := "string", deleted := some "h2" })],
           [("a", { long := "y", deleted := some "h2" })]) ∧
    ({ long := "y", deleted := some "h2" } : ShortArg).deleted ≠ none := by
  refine ⟨rfl, by decide⟩

/-! ## Lemmas about `add___no` and claim C10 -/

theorem pyInsertAt_perm {α : Type} (l : List α) (i : Nat) (x : α) :
    (pyInsertAt l i x).Perm (x :: l) := by
  have h := @List.perm_middle _ x (l.take i) (l.drop i)
  rw [List.take_append_drop] at h
  exact h

theorem foldl_insert_perm (ins : List (Nat × Alias)) :
    ∀ l : List Alias,
      (ins.foldl (fun l p => pyInsertAt l p.1 p.2) l).Perm (l ++ ins.map (·.2)) := by
  induction ins with
  | nil => intro l; simp
  | cons p ps ih =>
    intro l
    rw [List.foldl_cons]
    refine (ih (pyInsertAt l p.1 p.2)).trans ?_
    refine ((pyInsertAt_perm l p.1 p.2).append_right _).trans ?_
    exact (@List.perm_middle _ p.2 l (ps.map (·.2))).symm

theorem enumFrom_no_inserts (aliases : List Alias) :
    ∀ n : Nat,
      ((List.enumFrom n aliases).filterMap (fun p =>
          if p.2.desc = "ARG_BOOL" then some (p.1 + 1, mk_no_alias p.2)
          else none)).map (·.2)
        = (aliases.filter (fun a => a.desc = "ARG_BOOL")).map mk_no_alias := by
  induction aliases with
  | nil => intro n; rfl
  | cons a t ih =>
    intro n
    by_cases h : a.desc = "ARG_BOOL" <;>
      simp [List.enumFrom, List.filterMap_cons, List.filter_cons, h, ih]

/-- C10: `add___no` rewrites every `ARG_NONE` record to `ARG_BOOL` and
synthesizes a `no-` sibling exactly for the records that were `ARG_BOOL` on
entry: its output is a permutation of the rewritten originals followed by
one synthesized sibling per originally-`ARG_BOOL` record (no sibling for
`ARG_NONE` records). -/
theorem C10_thm (aliases : List Alias) :
    (add___no aliases).Perm
      ((aliases.map (fun a =>
          if a.desc = "ARG_NONE" then { a with desc := "ARG_BOOL" } else a))
        ++ (aliases.filter (fun a => a.desc = "ARG_BOOL")).map mk_no_alias) := by
  unfold add___no
  refine (foldl_insert_perm _ _).trans ?_
  rw [List.enum, enumFrom_no_inserts aliases 0]

/-! ## Lemmas about the output rewrite and claim C9 -/

theorem rw_loop1_found (pre : List String) :
    ∀ (s : String) (rest acc : List String),
      (∀ l ∈ pre, strContains l JS_PARAMS_START = false) →
      strContains s JS_PARAMS_START = true →
      rw_loop1 (pre ++ s :: rest) acc = some (acc ++ pre ++ [s], rest) := by
  induction pre with
  | nil =>
    intro s rest acc _ hs
    simp [rw_loop1, hs]
  | cons p ps ih =>
    intro s rest acc hpre hs
    have hp : strContains p JS_PARAMS_START = false := hpre p (List.mem_cons_self _ _)
    simp only [List.cons_append, rw_loop1, hp, Bool.false_eq_true, if_false]
    have h := ih s rest (acc ++ [p]) (fun l hl => hpre l (List.mem_cons_of_mem _ hl)) hs
    simpa using h

theorem rw_loop1_none (lines : List String) :
    ∀ acc : List String,
      (∀ l ∈ lines, strContains l JS_PARAMS_START = false) →
      rw_loop1 lines acc = none := by
  induction lines with
  | nil => intro acc _; rfl
  | cons p ps ih =>
    intro acc hpre
    have hp : strContains p JS_PARAMS_START = false := hpre p (List.mem_cons_self _ _)
    simp only [rw_loop1, hp, Bool.false_eq_true, if_false]
    exact ih (acc ++ [p]) (fun l hl => hpre l (List.mem_cons_of_mem _ hl))

theorem rw_loop2_found (mid : List String) :
    ∀ (e : String) (post : List String),
      (∀ l ∈ mid, strContains l JS_PARAMS_END = false) →
      strContains e JS_PARAMS_END = true →
      rw_loop2 (mid ++ e :: post) = some (e, post) := by
  induction mid with
  | nil =>
    intro e post _ he
    simp [rw_loop2, he]
  | cons p ps ih =>
    intro e post hmid he
    have hp : strContains p JS_PARAMS_END = false := hmid p (List.mem_cons_self _ _)
    simp only [List.cons_append, rw_loop2, hp, Bool.false_eq_true, if_false]
    exact ih e post (fun l hl => hmid l (List.mem_cons_of_mem _ hl)) he

theorem rw_loop2_none (lines : List String) :
    (∀ l ∈ lines, strContains l JS_PARAMS_END = false) →
    rw_loop2 lines = none := by
  induction lines with
  | nil => intro _; rfl
  | cons p ps ih =>
    intro hpre
    have hp : strContains p JS_PARAMS_END = false := hpre p (List.mem_cons_self _ _)
    simp only [rw_loop2, hp, Bool.false_eq_true, if_false]
    exact ih (fun l hl => hpre l (List.mem_cons_of_mem _ hl))

/-- C9: the output rewrite keeps every line up to and including the
start-marker line and every line from the end-marker line onwards verbatim,
replacing exactly the lines strictly between the markers with the generated
lines; if the start marker is absent, or the end marker is absent after the
start marker, the rewrite fails. -/
theorem C9_thm :
    (∀ (pre : List String) (s : String) (mid : List String) (e : String)
        (post gen : List String),
        (∀ l ∈ pre, strContains l JS_PARAMS_START = false) →
        strContains s JS_PARAMS_START = true →
        (∀ l ∈ mid, strContains l JS_PARAMS_END = false) →
        strContains e JS_PARAMS_END = true →
        rewrite_output (pre ++ s :: (mid ++ e :: post)) gen =
          .ok ((pre ++ [s]) ++ gen ++ e :: post)) ∧
    (∀ lines gen : List String,
        (∀ l ∈ lines, strContains l JS_PARAMS_START = false) →
        rewrite_output lines gen =
          .error ("// " ++ JS_PARAMS_START ++ " not in OUTPUT_FILE")) ∧
    (∀ (pre : List String) (s : String) (tail gen : List String),
        (∀ l ∈ pre, strContains l JS_PARAMS_START = false) →
        strContains s JS_PARAMS_START = true →
        (∀ l ∈ tail, strContains l JS_PARAMS_END = false) →
        rewrite_output (pre ++ s :: tail) gen =
          .error ("// " ++ JS_PARAMS_END ++ " not in OUTPUT_FILE")) := by
  refine ⟨?_, ?_, ?_⟩
  · intro pre s mid e post gen hpre hs hmid he
    unfold rewrite_output
    rw [rw_loop1_found pre s (mid ++ e :: post) [] hpre hs]
    simp [rw_loop2_found mid e post hmid he]
  · intro lines gen hpre
    unfold rewrite_output
    simp [rw_loop1_none lines [] hpre]
  · intro pre s tail gen hpre hs htail
    unfold rewrite_output
    rw [rw_loop1_found pre s tail [] hpre hs]
    simp [rw_loop2_none tail htail]

/-- Witness for C9: a concrete five-line file with both markers is rewritten
with its head and tail preserved and the middle replaced. -/
theorem C9_thm_witness :
    rewrite_output
      ["header", "// BEGIN GENERATED CURL OPTIONS", "old line",
       "// END GENERATED CURL OPTIONS", "footer"]
      ["fresh"] =
      .ok ((["header"] ++ ["// BEGIN GENERATED CURL OPTIONS"]) ++ ["fresh"] ++
        "// END GENERATED CURL OPTIONS" :: ["footer"]) :=
  C9_thm.1 ["header"] "// BEGIN GENERATED CURL OPTIONS" ["old line"]
    "// END GENERATED CURL OPTIONS" ["footer"] ["fresh"]
    (by decide) (by decide) (by decide) (by decide)

/-! ## Lemmas about `get_aliases` and claim C8 -/

theorem mem_alSet {κ β : Type} [DecidableEq κ] (d : List (κ × β)) (k : κ) (v : β) :
    ∀ pv ∈ alSet d k v, pv ∈ d ∨ pv = (k, v) := by
  induction d with
  | nil => intro pv h; simp [alSet] at h; exact Or.inr h
  | cons p ps ih =>
    intro pv h
    by_cases hpk : p.1 = k
    · simp only [alSet, hpk, if_true] at h
      rcases List.mem_cons.mp h with h | h
      · exact Or.inr h
      · exact Or.inl (List.mem_cons_of_mem _ h)
    · simp only [alSet, hpk, if_false] at h
      rcases List.mem_cons.mp h with h | h
      · exact Or.inl (h ▸ List.mem_cons_self _ _)
      · rcases ih pv h with h | h
        · exact Or.inl (List.mem_cons_of_mem _ h)
        · exact Or.inr h

theorem ga_record_fst (dict : List (String × Alias)) (warned warns : List String)
    (a : Alias) : (ga_record (dict, warned, warns) a).1 = alSet dict a.lname a := by
  simp only [ga_record]
  cases alGet dict a.lname with
  | none => rfl
  | some old =>
    dsimp only
    by_cases hc : old ≠ a ∧ ¬ a.lname ∈ warned
    · rw [if_pos hc]
    · rw [if_neg hc]

theorem ga_loop_entries (ls : List String) :
    ∀ st : GAState,
      ga_loop ls st = (ga_entries ls).map (fun ps => ps.foldl ga_record st) := by
  induction ls with
  | nil => intro st; rfl
  | cons l ls ih =>
    intro st
    by_cases hend : strEndsWith (pyStrip l) OPTS_END
    · simp [ga_loop, ga_entries, hend, Except.map]
    · by_cases hstart : strStartsWith (pyStrip l) "\x7b"
      · cases hp : parse_alias_line (pyStrip l) with
        | error e =>
          simp [ga_loop, ga_entries, hend, hstart, hp, Except.map, Bind.bind, Except.bind]
        | ok a =>
          have h := ih (ga_record st a)
          cases he : ga_entries ls with
          | error e =>
            rw [he] at h
            simp [ga_loop, ga_entries, hend, hstart, hp, he, Except.map, Bind.bind,
              Except.bind, h, Pure.pure, Except.pure]
          | ok ps =>
            rw [he] at h
            simp [ga_loop, ga_entries, hend, hstart, hp, he, Except.map, Bind.bind,
              Except.bind, h, Pure.pure, Except.pure, List.foldl_cons]
      · simp [ga_loop, ga_entries, hend, hstart, ih st]

theorem ga_fold_lookup (ps : List Alias) :
    ∀ (st : GAState) (l : String),
      alGet (ps.foldl ga_record st).1 l =
        match lastWithLname l ps with
        | some b => some b
        | none => alGet st.1 l := by
  induction ps with
  | nil => intro st l; rfl
  | cons a ps ih =>
    intro st l
    obtain ⟨dict, warned, warns⟩ := st
    rw [List.foldl_cons, ih]
    have hrec : alGet (ga_record (dict, warned, warns) a).1 l =
        if a.lname = l then some a else alGet dict l := by
      rw [ga_record_fst, alGet_alSet]
    rw [hrec]
    show _ = (match lastWithLname l (a :: ps) with
      | some b => some b
      | none => alGet dict l)
    rw [lastWithLname]
    cases lastWithLname l ps with
    | some b => rfl
    | none =>
      by_cases hl : a.lname = l <;> simp [hl]

theorem ga_fold_dict_keys (ps : List Alias) :
    ∀ st : GAState, (alKeys st.1).Nodup →
      (alKeys (ps.foldl ga_record st).1).Nodup := by
  induction ps with
  | nil => intro st h; exact h
  | cons a ps ih =>
    intro st h
    obtain ⟨dict, warned, warns⟩ := st
    rw [List.foldl_cons]
    apply ih
    have : (ga_record (dict, warned, warns) a).1 = alSet dict a.lname a :=
      ga_record_fst dict warned warns a
    rw [this]
    exact alKeys_nodup_alSet _ _ _ h

theorem ga_fold_dict_lname (ps : List Alias) :
    ∀ st : GAState, (∀ pv ∈ st.1, pv.2.lname = pv.1) →
      ∀ pv ∈ (ps.foldl ga_record st).1, pv.2.lname = pv.1 := by
  induction ps with
  | nil => intro st h; exact h
  | cons a ps ih =>
    intro st h
    obtain ⟨dict, warned, warns⟩ := st
    rw [List.foldl_cons]
    apply ih
    intro pv hpv
    rw [ga_record_fst] at hpv
    rcases mem_alSet dict a.lname a pv hpv with hm | hm
    · exact h pv hm
    · rw [hm]

theorem lastWith_of_mem (ps : List Alias) :
    ∀ a ∈ ps, ∃ b, lastWithLname a.lname ps = some b := by
  induction ps with
  | nil => intro a h; simp at h
  | cons c ps ih =>
    intro a ha
    rw [lastWithLname]
    cases hlast : lastWithLname a.lname ps with
    | some b => exact ⟨b, rfl⟩
    | none =>
      rcases List.mem_cons.mp ha with h | h
      · subst h
        simp
      · rcases ih a h with ⟨b, hb⟩
        rw [hlast] at hb
        cases hb

theorem ga_fold_warn_inv (ps : List Alias) :
    ∀ st : GAState, st.2.2.Nodup → (∀ x ∈ st.2.2, x ∈ st.2.1) →
      ((ps.foldl ga_record st).2.2.Nodup ∧
       (∀ x ∈ (ps.foldl ga_record st).2.2, x ∈ (ps.foldl ga_record st).2.1) ∧
       (∀ x ∈ st.2.1, x ∈ (ps.foldl ga_record st).2.1) ∧
       (∀ x ∈ (ps.foldl ga_record st).2.2, x ∈ st.2.2 ∨ x ∉ st.2.1)) := by
  induction ps with
  | nil =>
    intro st h1 h2
    exact ⟨h1, h2, fun x hx => hx, fun x hx => Or.inl hx⟩
  | cons a ps ih =>
    intro st h1 h2
    obtain ⟨dict, warned, warns⟩ := st
    rw [List.foldl_cons]
    cases hget : alGet dict a.lname with
    | none =>
      have hst : ga_record (dict, warned, warns) a =
          (alSet dict a.lname a, warned, warns) := by
        simp only [ga_record, hget]
      rw [hst]
      exact ih _ h1 h2
    | some old =>
      by_cases hc : old ≠ a ∧ ¬ a.lname ∈ warned
      · have hst : ga_record (dict, warned, warns) a =
            (alSet dict a.lname a, warned ++ [a.lname], warns ++ [a.lname]) := by
          simp only [ga_record, hget, if_pos hc]
        rw [hst]
        have hnw : a.lname ∉ warns := fun hx => hc.2 (h2 _ hx)
        have h1' : (warns ++ [a.lname]).Nodup := by
          simp [List.nodup_append, h1, hnw]
        have h2' : ∀ x ∈ warns ++ [a.lname], x ∈ warned ++ [a.lname] := by
          intro x hx
          rcases List.mem_append.mp hx with hx | hx
          · exact List.mem_append.mpr (Or.inl (h2 x hx))
          · exact List.mem_append.mpr (Or.inr hx)
        obtain ⟨g1, g2, g3, g4⟩ := ih (alSet dict a.lname a, warned ++ [a.lname],
          warns ++ [a.lname]) h1' h2'
        refine ⟨g1, g2, ?_, ?_⟩
        · intro x hx
          exact g3 x (List.mem_append.mpr (Or.inl hx))
        · intro x hx
          rcases g4 x hx with hx' | hx'
          · rcases List.mem_append.mp hx' with hx'' | hx''
            · exact Or.inl hx''
            · simp at hx''
              subst hx''
              exact Or.inr hc.2
          · exact Or.inr (fun hm => hx' (List.mem_append.mpr (Or.inl hm)))
      · have hst : ga_record (dict, warned, warns) a =
            (alSet dict a.lname a, warned, warns) := by
          simp only [ga_record, hget, if_neg hc]
        rw [hst]
        exact ih _ h1 h2

/-- C8: within one snapshot, when a long name is defined more than once,
`get_aliases` returns for it exactly the last parsed definition ("the later
definition wins"); each parsed long name is represented in the output by its
last occurrence; and the duplicate warnings emitted by one run are free of
repeats, cover only names not already in the threaded `warned_repeats` set,
and are all added to that set — so each long name is warned about at most
once across the whole run. -/
theorem C8_thm (contents : String) (warned0 : List String) (out : List Alias)
    (warned1 warns : List String)
    (h : get_aliases warned0 contents = .ok (out, warned1, warns)) :
    (∃ ps, ga_entries (find_start (pySplitlines contents)) = .ok ps ∧
      (∀ b ∈ out, lastWithLname b.lname ps = some b) ∧
      (∀ a ∈ ps, ∃ b ∈ out, lastWithLname a.lname ps = some b)) ∧
    warns.Nodup ∧
    (∀ x ∈ warns, x ∉ warned0 ∧ x ∈ warned1) ∧
    (∀ x ∈ warned0, x ∈ warned1) := by
  unfold get_aliases at h
  simp only [ga_loop_entries] at h
  cases he : ga_entries (find_start (pySplitlines contents)) with
  | error e => rw [he] at h; cases h
  | ok ps =>
    rw [he] at h
    obtain ⟨d, w, ws, hfold⟩ : ∃ d w ws,
        ps.foldl ga_record (([], warned0, []) : GAState) = (d, w, ws) := ⟨_, _, _, rfl⟩
    simp only [Except.map, Bind.bind, Except.bind] at h
    rw [hfold] at h
    dsimp only at h
    rw [Except.ok.injEq, Prod.mk.injEq, Prod.mk.injEq] at h
    obtain ⟨hd, hw, hws'⟩ := h
    have hdict : (ps.foldl ga_record (([], warned0, []) : GAState)).1.map (·.2) = out := by
      rw [hfold]; exact hd
    have hw1 : (ps.foldl ga_record (([], warned0, []) : GAState)).2.1 = warned1 := by
      rw [hfold]; exact hw
    have hws : (ps.foldl ga_record (([], warned0, []) : GAState)).2.2 = warns := by
      rw [hfold]; exact hws'
    have hkeys : (alKeys (ps.foldl ga_record (([], warned0, []) : GAState)).1).Nodup :=
      ga_fold_dict_keys ps _ (by simp [alKeys])
    have hlname : ∀ pv ∈ (ps.foldl ga_record (([], warned0, []) : GAState)).1,
        pv.2.lname = pv.1 :=
      ga_fold_dict_lname ps _ (by simp)
    refine ⟨⟨ps, rfl, ?_, ?_⟩, ?_⟩
    · intro b hb
      rw [← hdict] at hb
      rcases List.mem_map.mp hb with ⟨pv, hpv, hpv2⟩
      have hk : pv.1 = b.lname := by rw [← hpv2]; exact (hlname pv hpv).symm
      have hget : alGet (ps.foldl ga_record (([], warned0, []) : GAState)).1 b.lname
          = some b := by
        rw [← hk, ← hpv2]
        exact alGet_of_mem_nodup _ _ _ hkeys (by rw [← @Prod.mk.eta _ _ pv] at hpv; exact hpv)
      rw [ga_fold_lookup] at hget
      cases hlast : lastWithLname b.lname ps with
      | some c => rw [hlast] at hget; simpa using hget
      | none => rw [hlast] at hget; simp [alGet] at hget
    · intro a ha
      rcases lastWith_of_mem ps a ha with ⟨b, hb⟩
      refine ⟨b, ?_, hb⟩
      have hget : alGet (ps.foldl ga_record (([], warned0, []) : GAState)).1 a.lname
          = some b := by
        rw [ga_fold_lookup, hb]
      have hmem := alGet_mem _ _ _ hget
      rw [← hdict]
      exact List.mem_map.mpr ⟨(a.lname, b), hmem, rfl⟩
    · obtain ⟨g1, g2, g3, g4⟩ := ga_fold_warn_inv ps (([], warned0, []) : GAState)
        (by simp) (by simp)
      rw [hws] at g1 g2 g4
      rw [hw1] at g2 g3
      refine ⟨g1, ?_, g3⟩
      intro x hx
      refine ⟨?_, g2 x hx⟩
      rcases g4 x hx with hx' | hx'
      · simp at hx'
      · exact hx'

/-- Witness for C8: contents defining `foo` twice with different values keep
only the later definition and warn once, recording `foo` in the warned set. -/
theorem C8_thm_witness :
    ((∃ ps, ga_entries (find_start (pySplitlines dupRepeatContents)) = .ok ps ∧
      (∀ b ∈ [({ letter := "a", lname := "foo", desc := "FALSE" } : Alias)],
        lastWithLname b.lname ps = some b) ∧
      (∀ a ∈ ps, ∃ b ∈ [({ letter := "a", lname := "foo", desc := "FALSE" } : Alias)],
        lastWithLname a.lname ps = some b)) ∧
    (["foo"] : List String).Nodup ∧
    (∀ x ∈ (["foo"] : List String), x ∉ ([] : List String) ∧ x ∈ ["foo"]) ∧
    (∀ x ∈ ([] : List String), x ∈ ["foo"])) :=
  C8_thm dupRepeatContents []
    [{ letter := "a", lname := "foo", desc := "FALSE" }] ["foo"] ["foo"] rfl

/-! ## Lemmas about `group_same` and claim C7 -/

theorem insSorted_length (x : String) (l : List String) :
    (insSorted x l).length = l.length + 1 := by
  induction l with
  | nil => rfl
  | cons y ys ih =>
    by_cases h : strLe x y = true <;> simp [insSorted, h, ih]

theorem pySorted_length (l : List String) : (pySorted l).length = l.length := by
  induction l with
  | nil => rfl
  | cons x xs ih =>
    show (insSorted x (pySorted xs)).length = xs.length + 1
    rw [insSorted_length, ih]

theorem sdStr_keys (m : List (String × List String)) (k v : String) :
    alKeys (sdStr m k v) = if k ∈ alKeys m then alKeys m else alKeys m ++ [k] := by
  unfold sdStr
  cases hg : alGet m k with
  | some l =>
    have hk : k ∈ alKeys m := by
      by_contra hk
      rw [(alGet_eq_none m k).mpr hk] at hg
      cases hg
    rw [alKeys_alSet]
  | none =>
    have hk : k ∉ alKeys m := (alGet_eq_none m k).mp hg
    rw [if_neg hk]
    simp [alKeys]

theorem seen_letters_keys_nodup (aliases : List Alias) :
    (alKeys (seen_letters aliases)).Nodup := by
  unfold seen_letters
  suffices h : ∀ m : List (String × List String), (alKeys m).Nodup →
      (alKeys (aliases.foldl (fun m a => sdStr m a.letter a.lname) m)).Nodup by
    exact h [] (by simp [alKeys])
  induction aliases with
  | nil => intro m hm; exact hm
  | cons a t ih =>
    intro m hm
    rw [List.foldl_cons]
    apply ih
    rw [sdStr_keys]
    by_cases hk : a.letter ∈ alKeys m
    · simpa [hk]
    · simpa [hk, List.nodup_append] using hm

theorem dup_fold_ok (seen : List (String × List String)) :
    ∀ d : List (String × String),
      (∀ p ∈ seen, 1 < (pySorted p.2).length → (DUPES_get (pySorted p.2)).isSome) →
      ∃ d', seen.foldlM gs_step d = .ok d' ∧
        (∀ k, k ∉ alKeys seen → alGet d' k = alGet d k) ∧
        ((alKeys seen).Nodup →
          ∀ p ∈ seen, ∀ w, 1 < (pySorted p.2).length →
            DUPES_get (pySorted p.2) = some w → alGet d' p.1 = some w) := by
  induction seen with
  | nil =>
    intro d _
    exact ⟨d, rfl, fun k _ => rfl, fun _ p hp => absurd hp (by simp)⟩
  | cons q rest ih =>
    intro d hreg
    by_cases hql : 1 < (pySorted q.2).length
    · cases hqd : DUPES_get (pySorted q.2) with
      | none =>
        have := hreg q (List.mem_cons_self _ _) hql
        rw [hqd] at this
        cases this
      | some w =>
        obtain ⟨d', hfold, hother, hmem⟩ :=
          ih (alSet d q.1 w) (fun p hp => hreg p (List.mem_cons_of_mem _ hp))
        refine ⟨d', ?_, ?_, ?_⟩
        · rw [List.foldlM_cons]
          have hstep : gs_step d q = pure (alSet d q.1 w) := by
            simp only [gs_step, if_pos hql, hqd]
          rw [hstep]
          exact hfold
        · intro k hk
          have hk1 : k ∉ alKeys rest := by
            intro hm; exact hk (by simp [alKeys] at hm ⊢; exact Or.inr hm)
          have hk2 : ¬ q.1 = k := by
            intro hm; exact hk (by simp [alKeys, hm])
          rw [hother k hk1, alGet_alSet]
          simp [hk2]
        · intro hnd p hp w' hlen hw
          rw [alKeys_cons] at hnd
          have hq1 : q.1 ∉ alKeys rest := (List.nodup_cons.mp hnd).1
          have hndr : (alKeys rest).Nodup := (List.nodup_cons.mp hnd).2
          rcases List.mem_cons.mp hp with hp | hp
          · rw [hp] at hw
            rw [hw] at hqd
            injection hqd with hww
            rw [hp, hother q.1 hq1, alGet_alSet]
            simp [hww]
          · exact hmem hndr p hp w' hlen hw
    · have hstep : gs_step d q = pure d := by
        simp only [gs_step, if_neg hql]
      obtain ⟨d', hfold, hother, hmem⟩ :=
        ih d (fun p hp => hreg p (List.mem_cons_of_mem _ hp))
      refine ⟨d', ?_, ?_, ?_⟩
      · rw [List.foldlM_cons, hstep]
        exact hfold
      · intro k hk
        have hk1 : k ∉ alKeys rest := by
          intro hm; exact hk (by simp [alKeys] at hm ⊢; exact Or.inr hm)
        exact hother k hk1
      · intro hnd p hp w' hlen hw
        rw [alKeys_cons] at hnd
        have hndr : (alKeys rest).Nodup := (List.nodup_cons.mp hnd).2
        rcases List.mem_cons.mp hp with hp | hp
        · subst hp
          exact absurd hlen hql
        · exact hmem hndr p hp w' hlen hw

theorem dup_fold_err (seen : List (String × List String)) :
    ∀ d : List (String × String),
      (∃ p ∈ seen, 1 < (pySorted p.2).length ∧ DUPES_get (pySorted p.2) = none) →
      ∃ letter lns, (letter, lns) ∈ seen ∧ 1 < (pySorted lns).length ∧
        DUPES_get (pySorted lns) = none ∧
        seen.foldlM gs_step d = .error (group_same_err (pySorted lns) letter) := by
  induction seen with
  | nil => intro d h; simp at h
  | cons q rest ih =>
    intro d hex
    by_cases hql : 1 < (pySorted q.2).length
    · cases hqd : DUPES_get (pySorted q.2) with
      | none =>
        refine ⟨q.1, q.2, ?_, hql, hqd, ?_⟩
        · exact List.mem_cons_self _ _
        · rw [List.foldlM_cons]
          have hstep : gs_step d q =
              .error (group_same_err (pySorted q.2) q.1) := by
            simp only [gs_step, if_pos hql, hqd]
          rw [hstep]
          rfl
      | some w =>
        have hex' : ∃ p ∈ rest, 1 < (pySorted p.2).length ∧
            DUPES_get (pySorted p.2) = none := by
          rcases hex with ⟨p, hp, h1, h2⟩
          rcases List.mem_cons.mp hp with hp | hp
          · subst hp; rw [hqd] at h2; cases h2
          · exact ⟨p, hp, h1, h2⟩
        obtain ⟨letter, lns, hmem, h1, h2, hfold⟩ := ih (alSet d q.1 w) hex'
        refine ⟨letter, lns, List.mem_cons_of_mem _ hmem, h1, h2, ?_⟩
        rw [List.foldlM_cons]
        have hstep : gs_step d q = pure (alSet d q.1 w) := by
          simp only [gs_step, if_pos hql, hqd]
        rw [hstep]
        exact hfold
    · have hex' : ∃ p ∈ rest, 1 < (pySorted p.2).length ∧
          DUPES_get (pySorted p.2) = none := by
        rcases hex with ⟨p, hp, h1, h2⟩
        rcases List.mem_cons.mp hp with hp | hp
        · subst hp; exact absurd h1 hql
        · exact ⟨p, hp, h1, h2⟩
      obtain ⟨letter, lns, hmem, h1, h2, hfold⟩ := ih d hex'
      refine ⟨letter, lns, List.mem_cons_of_mem _ hmem, h1, h2, ?_⟩
      rw [List.foldlM_cons]
      have hstep : gs_step d q = pure d := by
        simp only [gs_step, if_neg hql]
      rw [hstep]
      exact hfold

/-- C7: within a snapshot whose long names are distinct (the extractor's
invariant), if some short letter is shared by two or more records and the
sorted tuple of their long names is not registered in `DUPES`, `group_same`
aborts with the fatal error built from those long names and that letter;
if every such collision is registered, it succeeds, and every colliding
record whose long name is not the table's canonical winner gets `name` set
to the winner. -/
theorem C7_thm (aliases : List Alias) (hnd : (aliases.map (fun a => a.lname)).Nodup) :
    ((∃ p ∈ seen_letters aliases, 1 < p.2.length ∧
        DUPES_get (pySorted p.2) = none) →
      ∃ letter lns, (letter, lns) ∈ seen_letters aliases ∧ 1 < lns.length ∧
        DUPES_get (pySorted lns) = none ∧
        group_same aliases = .error (group_same_err (pySorted lns) letter)) ∧
    ((∀ p ∈ seen_letters aliases, 1 < p.2.length →
        (DUPES_get (pySorted p.2)).isSome) →
      ∃ out, group_same aliases = .ok out ∧ out.length = aliases.length ∧
        ∀ p ∈ seen_letters aliases, ∀ w, 1 < p.2.length →
          DUPES_get (pySorted p.2) = some w →
          ∀ a ∈ aliases, a.letter = p.1 → a.lname ≠ w →
            ({ a with name := some w } : Alias) ∈ out) := by
  constructor
  · intro hex
    have hex' : ∃ p ∈ seen_letters aliases, 1 < (pySorted p.2).length ∧
        DUPES_get (pySorted p.2) = none := by
      rcases hex with ⟨p, hp, h1, h2⟩
      exact ⟨p, hp, by rw [pySorted_length]; exact h1, h2⟩
    obtain ⟨letter, lns, hmem, h1, h2, hfold⟩ :=
      dup_fold_err (seen_letters aliases) [] hex'
    refine ⟨letter, lns, hmem, by rw [pySorted_length] at h1; exact h1, h2, ?_⟩
    unfold group_same dup_aliases
    rw [hfold]
    rfl
  · intro hreg
    have hreg' : ∀ p ∈ seen_letters aliases, 1 < (pySorted p.2).length →
        (DUPES_get (pySorted p.2)).isSome := by
      intro p hp h1
      exact hreg p hp (by rw [pySorted_length] at h1; exact h1)
    obtain ⟨dup, hfold, _, hmem⟩ := dup_fold_ok (seen_letters aliases) [] hreg'
    refine ⟨aliases.map (fun a =>
        match alGet dup a.letter with
        | some w => if a.lname ≠ w then { a with name := some w } else a
        | none => a), ?_, by simp, ?_⟩
    · unfold group_same dup_aliases
      rw [hfold]
      rfl
    · intro p hp w hlen hw a ha haletter hane
      have hget : alGet dup a.letter = some w := by
        rw [haletter]
        exact hmem (seen_letters_keys_nodup aliases) p hp w
          (by rw [pySorted_length]; exact hlen) hw
      refine List.mem_map.mpr ⟨a, ha, ?_⟩
      rw [hget]
      simp [hane]

/-- Witness for C7: two records sharing letter `T` with unregistered long
names cause the fatal collision error, and the registered `socks`/`socks5`
pair on letter `s` succeeds with `socks` renamed to the winner `socks5`. -/
theorem C7_thm_witness :
    (∃ letter lns,
      (letter, lns) ∈ seen_letters
        [{ letter := "T", lname := "foo", desc := "TRUE" },
         { letter := "T", lname := "bar", desc := "TRUE" }] ∧
      1 < lns.length ∧ DUPES_get (pySorted lns) = none ∧
      group_same
        [{ letter := "T", lname := "foo", desc := "TRUE" },
         { letter := "T", lname := "bar", desc := "TRUE" }] =
        .error (group_same_err (pySorted lns) letter)) ∧
    (∃ out, group_same
        [{ letter := "s", lname := "socks", desc := "TRUE" },
         { letter := "s", lname := "socks5", desc := "TRUE" }] = .ok out ∧
      out.length = 2 ∧
      ∀ p ∈ seen_letters
          [{ letter := "s", lname := "socks", desc := "TRUE" },
           { letter := "s", lname := "socks5", desc := "TRUE" }],
        ∀ w, 1 < p.2.length → DUPES_get (pySorted p.2) = some w →
        ∀ a ∈ [({ letter := "s", lname := "socks", desc := "TRUE" } : Alias),
               { letter := "s", lname := "socks5", desc := "TRUE" }],
          a.letter = p.1 → a.lname ≠ w →
          ({ a with name := some w } : Alias) ∈ out) :=
  ⟨(C7_thm [{ letter := "T", lname := "foo", desc := "TRUE" },
            { letter := "T", lname := "bar", desc := "TRUE" }] (by decide)).1
      ⟨("T", ["foo", "bar"]), by decide, by decide, by decide⟩,
   (C7_thm [{ letter := "s", lname := "socks", desc := "TRUE" },
            { letter := "s", lname := "socks5", desc := "TRUE" }] (by decide)).2
      (by decide)⟩

/-! ## Lemmas about `collectAll`, `consecutive_runs` on full ranges, and claim C6 -/

theorem optApp_assoc (o : Option (List Nat)) (l1 l2 : List Nat) :
    optApp (optApp o l1) l2 = optApp o (l1 ++ l2) := by
  cases o with
  | some x => simp [optApp]
  | none =>
    by_cases h1 : l1 = [] <;> by_cases h2 : l2 = [] <;>
      simp [optApp, h1, h2]

theorem collectStep_long (st : List (LongKey × List Nat) ×
      List ((String × String) × List Nat)) (idx : Nat) (a : Alias) (K : LongKey) :
    alGet (collectStep st idx a).1 K =
      optApp (alGet st.1 K) (if longKey a = K then [idx] else []) := by
  unfold collectStep
  dsimp only
  by_cases hK : longKey a = K
  · rw [if_pos hK]
    subst hK
    rw [alGet_sdApp_self]
    cases alGet st.1 (longKey a) with
    | some x => simp [optApp]
    | none => simp [optApp]
  · rw [if_neg hK, alGet_sdApp_other _ _ _ _ hK]
    cases alGet st.1 K with
    | some x => simp [optApp]
    | none => simp [optApp]

theorem collect_snap_long (snap : List Alias) :
    ∀ (st : List (LongKey × List Nat) × List ((String × String) × List Nat))
      (idx : Nat) (K : LongKey),
      alGet ((snap.foldl (fun st a => collectStep st idx a) st)).1 K =
        optApp (alGet st.1 K) (List.replicate (longCount K snap) idx) := by
  induction snap with
  | nil =>
    intro st idx K
    cases h : alGet st.1 K <;> simp [longCount, optApp, h]
  | cons a t ih =>
    intro st idx K
    rw [List.foldl_cons, ih, collectStep_long, optApp_assoc]
    congr 1
    by_cases hK : longKey a = K
    · simp [longCount, List.filter_cons, hK, List.replicate_succ]
    · simp [longCount, List.filter_cons, hK]

theorem collect_tl_long (ps : List (Nat × (CommitMeta × List Alias))) :
    ∀ (st : List (LongKey × List Nat) × List ((String × String) × List Nat))
      (K : LongKey),
      alGet ((ps.foldl (fun st p =>
          p.2.2.foldl (fun st a => collectStep st p.1 a) st) st)).1 K =
        optApp (alGet st.1 K) (longIdxs K ps) := by
  induction ps with
  | nil =>
    intro st K
    cases h : alGet st.1 K <;> simp [longIdxs, optApp, h]
  | cons p ps ih =>
    intro st K
    rw [List.foldl_cons, ih, collect_snap_long, optApp_assoc]
    rfl

theorem collectAll_long (tl : List (CommitMeta × List Alias)) (K : LongKey) :
    alGet (collectAll tl).1 K = optApp none (longIdxs K tl.enum) := by
  unfold collectAll
  rw [collect_tl_long]
  rfl

theorem longIdxs_eq_map (K : LongKey) (ps : List (Nat × (CommitMeta × List Alias)))
    (h : ∀ q ∈ ps, longCount K q.2.2 = 1) : longIdxs K ps = ps.map (·.1) := by
  induction ps with
  | nil => rfl
  | cons q qs ih =>
    rw [longIdxs, h q (List.mem_cons_self _ _), ih
      (fun r hr => h r (List.mem_cons_of_mem _ hr))]
    rfl

theorem snd_mem_of_mem_enumFrom {α : Type} (l : List α) :
    ∀ (n : Nat) (q : Nat × α), q ∈ List.enumFrom n l → q.2 ∈ l := by
  induction l with
  | nil => intro n q h; simp [List.enumFrom] at h
  | cons a t ih =>
    intro n q h
    rcases List.mem_cons.mp h with h | h
    · rw [h]; exact List.mem_cons_self _ _
    · exact List.mem_cons_of_mem _ (ih (n + 1) q h)

theorem crGo_range (k : Nat) :
    ∀ (prev : Nat) (run : List Nat) (runs : List (Nat × Nat)),
      run ≠ [] → run.getLastD 0 = prev →
      crGo run runs prev (List.range' (prev + 1) k) =
        .ok (runs ++ [(run.headD 0, prev + k)]) := by
  induction k with
  | zero =>
    intro prev run runs hne hl
    show crGo run runs prev [] = _
    rw [crGo, hl]
    rfl
  | succ k ih =>
    intro prev run runs hne hl
    have hr : List.range' (prev + 1) (k + 1) = (prev + 1) :: List.range' (prev + 2) k :=
      List.range'_succ (prev + 1) k 1
    rw [hr, crGo, if_pos rfl]
    have hk := ih (prev + 1) (run ++ [prev + 1]) runs (by simp) (by simp)
    rw [hk]
    have hhead : (run ++ [prev + 1]).headD 0 = run.headD 0 := by
      cases run with
      | nil => exact absurd rfl hne
      | cons x t => rfl
    rw [hhead]
    have harith : prev + 1 + k = prev + (k + 1) := by omega
    rw [harith]

theorem consecutive_runs_range (N : Nat) (h : 1 ≤ N) :
    consecutive_runs (List.range N) = .ok [(0, N - 1)] := by
  cases N with
  | zero => omega
  | succ n =>
    have hr : List.range (n + 1) = 0 :: List.range' 1 n := by
      rw [List.range_eq_range', List.range'_succ]
    rw [hr]
    show crGo [0] [] 0 (List.range' 1 n) = _
    have := crGo_range n 0 [0] [] (by simp) rfl
    rw [this]
    simp

theorem mapM_ok_mem {α β : Type} (f : α → Except String β) (l : List α) :
    ∀ out : List β, l.mapM f = .ok out → ∀ x ∈ l, ∃ y, f x = .ok y ∧ y ∈ out := by
  induction l with
  | nil => intro out _ x hx; simp at hx
  | cons a t ih =>
    intro out h x hx
    rw [List.mapM_cons] at h
    cases hfa : f a with
    | error e =>
      rw [hfa] at h
      simp [Bind.bind, Except.bind] at h
    | ok y =>
      rw [hfa] at h
      cases hft : t.mapM f with
      | error e =>
        rw [hft] at h
        simp [Bind.bind, Except.bind] at h
      | ok ys =>
        rw [hft] at h
        simp only [Bind.bind, Except.bind, Pure.pure, Except.pure,
          Except.ok.injEq] at h
        rcases List.mem_cons.mp hx with hx | hx
        · exact ⟨y, hx ▸ hfa, h ▸ List.mem_cons_self _ _⟩
        · rcases ih ys hft x hx with ⟨z, hz1, hz2⟩
          exact ⟨z, hz1, h ▸ List.mem_cons_of_mem _ hz2⟩

/-- C6: a long-form Identity Key occurring exactly once in every snapshot of
a timeline of length N ≥ 1 collects the full index list `range N`, which
forms the single existence run `(0, N-1)`, whose lifetime translation is
`(none, none)`; and whenever `find_deleted` succeeds, the key's final record
carries no `deleted` marker. -/
theorem C6_thm (tl : List (CommitMeta × List Alias)) (K : LongKey)
    (hN : 1 ≤ tl.length) (honce : ∀ p ∈ tl, longCount K p.2 = 1) :
    alGet (collectAll tl).1 K = some (List.range tl.length) ∧
    consecutive_runs (List.range tl.length) = .ok [(0, tl.length - 1)] ∧
    lifetimesOf tl.length [(0, tl.length - 1)] = [(none, none)] ∧
    (∀ L S, find_deleted tl = .ok (L, S) →
      ∃ rec, (K.lname, rec) ∈ L ∧ rec.deleted = none) := by
  have hcollect : alGet (collectAll tl).1 K = some (List.range tl.length) := by
    rw [collectAll_long, longIdxs_eq_map K tl.enum
      (fun q hq => honce q.2 (snd_mem_of_mem_enumFrom tl 0 q hq)),
      List.enum_map_fst]
    have hne : List.range tl.length ≠ [] := by
      intro hcon
      rw [List.range_eq_nil] at hcon
      omega
    simp [optApp, hne]
  have hruns : consecutive_runs (List.range tl.length) = .ok [(0, tl.length - 1)] :=
    consecutive_runs_range tl.length hN
  have hlife : lifetimesOf tl.length [(0, tl.length - 1)] = [(none, none)] := by
    unfold lifetimesOf
    have h1 : ¬ (tl.length - 1 + 1 < tl.length) := by omega
    simp [h1]
  refine ⟨hcollect, hruns, hlife, ?_⟩
  intro L S hok
  unfold find_deleted at hok
  obtain ⟨lraw, sraw, hcoll⟩ : ∃ lraw sraw, collectAll tl = (lraw, sraw) :=
    ⟨_, _, rfl⟩
  rw [hcoll] at hok
  dsimp only at hok
  cases hL : lraw.mapM (fun p => do
      let r ← consecutive_runs p.2
      pure (p.1, r) : _ → Except String (LongKey × List (Nat × Nat))) with
  | error e =>
    rw [hL] at hok
    simp [Bind.bind, Except.bind] at hok
  | ok lmap =>
    rw [hL] at hok
    cases hS : sraw.mapM (fun p => do
        let r ← consecutive_runs p.2
        pure (p.1, r) : _ → Except String ((String × String) × List (Nat × Nat))) with
    | error e =>
      rw [hS] at hok
      simp [Bind.bind, Except.bind] at hok
    | ok smap =>
      rw [hS] at hok
      simp only [Bind.bind, Except.bind, Pure.pure, Except.pure,
        Except.ok.injEq, Prod.mk.injEq] at hok
      obtain ⟨hokL, _⟩ := hok
      have hmemraw : (K, List.range tl.length) ∈ lraw := by
        have := hcollect
        rw [hcoll] at this
        exact alGet_mem _ _ _ this
      obtain ⟨y, hy1, hy2⟩ := mapM_ok_mem _ lraw lmap hL _ hmemraw
      have hy : y = (K, [(0, tl.length - 1)]) := by
        rw [show (do
            let r ← consecutive_runs (K, List.range tl.length).2
            pure ((K, List.range tl.length).1, r) : Except String (LongKey × List (Nat × Nat))) =
          (do
            let r ← consecutive_runs (List.range tl.length)
            pure (K, r)) from rfl, hruns] at hy1
        simp only [Bind.bind, Except.bind, Pure.pure, Except.pure,
          Except.ok.injEq] at hy1
        exact hy1.symm
      subst hy
      refine ⟨(mkLongItem tl.length
        (fun i => (tl.map (fun p => p.1.hash)).getD i "") K [(0, tl.length - 1)]).2,
        ?_, ?_⟩
      · rw [← hokL]
        exact List.mem_map.mpr ⟨(K, [(0, tl.length - 1)]), hy2, rfl⟩
      · simp only [mkLongItem, hlife]
        simp
  
/-- Witness for C6: the `verbose` key of the three-snapshot timeline
`tlVerbose` collects indices 0–2, forms the single run `(0, 2)`, has
lifetime `(none, none)`, and its final record is not marked deleted. -/
theorem C6_thm_witness :
    alGet (collectAll tlVerbose).1 verboseKey =
      some (List.range tlVerbose.length) ∧
    consecutive_runs (List.range tlVerbose.length) =
      .ok [(0, tlVerbose.length - 1)] ∧
    lifetimesOf tlVerbose.length [(0, tlVerbose.length - 1)] = [(none, none)] ∧
    (∀ L S, find_deleted tlVerbose = .ok (L, S) →
      ∃ rec, (verboseKey.lname, rec) ∈ L ∧ rec.deleted = none) :=
  C6_thm tlVerbose verboseKey (by decide) (by decide)

end Curl
